import Mathlib

/-!
Verification of the minimal byte-pair-encoding tokenizer
(class MinimalBPETokenizer in .gamma/tokenizer/bpe_fixed.py).

Texts are modelled as lists of Unicode scalar values (Nat), bytes as Nat
below 256.  The UTF-8 layer models Python `str.encode` and
`bytes.decode` with errors set to replace; the tokenizer layer is a direct
translation of get_stats, merge_pair, train, encode and decode, with
Python dicts rendered as insertion-ordered association lists.
-/

/-- A Unicode scalar value: any code point that is not a surrogate. -/
def ValidScalar (n : Nat) : Prop := n < 0xD800 ∨ (0xE000 ≤ n ∧ n < 0x110000)

instance (n : Nat) : Decidable (ValidScalar n) := by
  unfold ValidScalar; infer_instance

/-- UTF-8 encoding of a single scalar value, as in CPython. -/
def utf8EncodeChar (n : Nat) : List Nat :=
  if n < 0x80 then [n]
  else if n < 0x800 then [0xC0 + n / 64, 0x80 + n % 64]
  else if n < 0x10000 then
    [0xE0 + n / 4096, 0x80 + n / 64 % 64, 0x80 + n % 64]
  else
    [0xF0 + n / 0x40000, 0x80 + n / 4096 % 64, 0x80 + n / 64 % 64, 0x80 + n % 64]

/-- UTF-8 encoding of a text, models Python text.encode. -/
def utf8Encode (s : List Nat) : List Nat := s.flatMap utf8EncodeChar

/--
One step of the replacing UTF-8 decoder: given the lead byte and the
following bytes, return the decoded scalar (or U+FFFD) together with how
many of the following bytes were consumed.  Follows the maximal-subpart
policy that CPython uses for errors equal to replace.
-/
def decodeStep (b : Nat) (rest : List Nat) : Nat × Nat :=
  if b < 0x80 then (b, 0)
  else if b < 0xC2 then (0xFFFD, 0)
  else if b < 0xE0 then
    match rest with
    | b2 :: _ =>
      if 0x80 ≤ b2 ∧ b2 < 0xC0 then ((b - 0xC0) * 64 + (b2 - 0x80), 1)
      else (0xFFFD, 0)
    | [] => (0xFFFD, 0)
  else if b < 0xF0 then
    match rest with
    | b2 :: rest2 =>
      if (0x80 ≤ b2 ∧ b2 < 0xC0) ∧ (0xA0 ≤ b2 ∨ 0xE0 < b) ∧
          (b2 < 0xA0 ∨ b < 0xED ∨ 0xED < b) then
        match rest2 with
        | b3 :: _ =>
          if 0x80 ≤ b3 ∧ b3 < 0xC0 then
            ((b - 0xE0) * 4096 + (b2 - 0x80) * 64 + (b3 - 0x80), 2)
          else (0xFFFD, 1)
        | [] => (0xFFFD, 1)
      else (0xFFFD, 0)
    | [] => (0xFFFD, 0)
  else if b < 0xF5 then
    match rest with
    | b2 :: rest2 =>
      if (0x80 ≤ b2 ∧ b2 < 0xC0) ∧ (0x90 ≤ b2 ∨ 0xF0 < b) ∧ (b2 < 0x90 ∨ b < 0xF4) then
        match rest2 with
        | b3 :: rest3 =>
          if 0x80 ≤ b3 ∧ b3 < 0xC0 then
            match rest3 with
            | b4 :: _ =>
              if 0x80 ≤ b4 ∧ b4 < 0xC0 then
                ((b - 0xF0) * 0x40000 + (b2 - 0x80) * 4096 + (b3 - 0x80) * 64 + (b4 - 0x80), 3)
              else (0xFFFD, 2)
            | [] => (0xFFFD, 2)
          else (0xFFFD, 1)
        | [] => (0xFFFD, 1)
      else (0xFFFD, 0)
    | [] => (0xFFFD, 0)
  else (0xFFFD, 0)

/-- Replacing UTF-8 decoder, models Python bytes.decode with replace. -/
def utf8DecodeReplace (l : List Nat) : List Nat :=
  match l with
  | [] => []
  | b :: rest => (decodeStep b rest).1 :: utf8DecodeReplace (rest.drop (decodeStep b rest).2)
termination_by l.length
decreasing_by
  simp only [List.length_cons, List.length_drop]
  omega

theorem utf8DecodeReplace_nil : utf8DecodeReplace [] = [] := by
  rw [utf8DecodeReplace]

theorem utf8DecodeReplace_cons (b : Nat) (rest : List Nat) :
    utf8DecodeReplace (b :: rest) =
      (decodeStep b rest).1 :: utf8DecodeReplace (rest.drop (decodeStep b rest).2) := by
  rw [utf8DecodeReplace]

theorem decodeStep_one {n : Nat} (h : n < 0x80) (l : List Nat) :
    decodeStep n l = (n, 0) := by
  simp [decodeStep, h]

theorem decodeStep_two {n : Nat} (h1 : 0x80 ≤ n) (h2 : n < 0x800) (l : List Nat) :
    decodeStep (0xC0 + n / 64) ((0x80 + n % 64) :: l) = (n, 1) := by
  simp only [decodeStep]
  split_ifs <;>
    first
      | (exfalso; omega)
      | (simp only [Prod.mk.injEq, Nat.add_sub_cancel_left, and_true]; omega)

theorem decodeStep_three {n : Nat} (h1 : 0x800 ≤ n) (h2 : n < 0x10000)
    (h3 : n < 0xD800 ∨ 0xE000 ≤ n) (l : List Nat) :
    decodeStep (0xE0 + n / 4096) ((0x80 + n / 64 % 64) :: (0x80 + n % 64) :: l) = (n, 2) := by
  have e1 : n / 64 / 64 = n / 4096 := by rw [Nat.div_div_eq_div_mul]
  simp only [decodeStep]
  split_ifs <;>
    first
      | (exfalso; omega)
      | (simp only [Prod.mk.injEq, Nat.add_sub_cancel_left, and_true]; omega)

theorem decodeStep_four {n : Nat} (h1 : 0x10000 ≤ n) (h2 : n < 0x110000) (l : List Nat) :
    decodeStep (0xF0 + n / 0x40000)
      ((0x80 + n / 4096 % 64) :: (0x80 + n / 64 % 64) :: (0x80 + n % 64) :: l) = (n, 3) := by
  have e1 : n / 64 / 64 = n / 4096 := by rw [Nat.div_div_eq_div_mul]
  have e2 : n / 4096 / 64 = n / 0x40000 := by rw [Nat.div_div_eq_div_mul]
  simp only [decodeStep]
  split_ifs <;>
    first
      | (exfalso; omega)
      | (simp only [Prod.mk.injEq, Nat.add_sub_cancel_left, and_true]; omega)

theorem utf8EncodeChar_one {n : Nat} (h : n < 0x80) : utf8EncodeChar n = [n] := by
  simp [utf8EncodeChar, h]

theorem utf8EncodeChar_two {n : Nat} (h1 : 0x80 ≤ n) (h2 : n < 0x800) :
    utf8EncodeChar n = [0xC0 + n / 64, 0x80 + n % 64] := by
  rw [utf8EncodeChar, if_neg (by omega), if_pos h2]

theorem utf8EncodeChar_three {n : Nat} (h1 : 0x800 ≤ n) (h2 : n < 0x10000) :
    utf8EncodeChar n = [0xE0 + n / 4096, 0x80 + n / 64 % 64, 0x80 + n % 64] := by
  rw [utf8EncodeChar, if_neg (by omega), if_neg (by omega), if_pos h2]

theorem utf8EncodeChar_four {n : Nat} (h1 : 0x10000 ≤ n) :
    utf8EncodeChar n =
      [0xF0 + n / 0x40000, 0x80 + n / 4096 % 64, 0x80 + n / 64 % 64, 0x80 + n % 64] := by
  rw [utf8EncodeChar, if_neg (by omega), if_neg (by omega), if_neg (by omega)]

/-- Decoding an encoded scalar consumes exactly its bytes and restores it. -/
theorem utf8DecodeReplace_encodeChar {n : Nat} (h : ValidScalar n) (l : List Nat) :
    utf8DecodeReplace (utf8EncodeChar n ++ l) = n :: utf8DecodeReplace l := by
  unfold ValidScalar at h
  by_cases h1 : n < 0x80
  · rw [utf8EncodeChar_one h1, List.singleton_append, utf8DecodeReplace_cons,
      decodeStep_one h1]
    rfl
  · by_cases h2 : n < 0x800
    · rw [utf8EncodeChar_two (by omega) h2]
      rw [List.cons_append, List.singleton_append, utf8DecodeReplace_cons,
        decodeStep_two (by omega) h2]
      rfl
    · by_cases h3 : n < 0x10000
      · rw [utf8EncodeChar_three (by omega) h3]
        rw [List.cons_append, List.cons_append, List.singleton_append,
          utf8DecodeReplace_cons, decodeStep_three (by omega) h3 (by omega)]
        rfl
      · rw [utf8EncodeChar_four (by omega)]
        rw [List.cons_append, List.cons_append, List.cons_append, List.singleton_append,
          utf8DecodeReplace_cons, decodeStep_four (by omega) (by omega)]
        rfl

/-- UTF-8 round trip on valid texts. -/
theorem utf8_roundtrip : ∀ s : List Nat, (∀ c ∈ s, ValidScalar c) →
    utf8DecodeReplace (utf8Encode s) = s := by
  intro s
  induction s with
  | nil => intro _; simp [utf8Encode, utf8DecodeReplace_nil]
  | cons c rest ih =>
    intro h
    have hc : ValidScalar c := h c (List.mem_cons_self c rest)
    have hrest : ∀ x ∈ rest, ValidScalar x := fun x hx => h x (List.mem_cons_of_mem c hx)
    simp only [utf8Encode, List.flatMap_cons]
    rw [show rest.flatMap utf8EncodeChar = utf8Encode rest from rfl,
      utf8DecodeReplace_encodeChar hc, ih hrest]

/-- Every byte emitted by the encoder on a valid scalar is below 256. -/
theorem utf8EncodeChar_lt {n : Nat} (h : ValidScalar n) :
    ∀ b ∈ utf8EncodeChar n, b < 256 := by
  unfold ValidScalar at h
  intro b hb
  unfold utf8EncodeChar at hb
  split_ifs at hb <;> simp only [List.mem_cons, List.not_mem_nil, or_false] at hb <;>
    rcases hb with hb | hb | hb | hb <;> omega

theorem utf8Encode_lt {s : List Nat} (h : ∀ c ∈ s, ValidScalar c) :
    ∀ b ∈ utf8Encode s, b < 256 := by
  intro b hb
  rcases List.mem_flatMap.mp hb with ⟨c, hc, hbc⟩
  exact utf8EncodeChar_lt (h c hc) b hbc

/-- Every scalar emitted by the replacing decoder is a valid scalar. -/
theorem decodeStep_fst_valid (b : Nat) (rest : List Nat) :
    ValidScalar (decodeStep b rest).1 := by
  unfold decodeStep
  unfold ValidScalar
  repeat' split
  all_goals dsimp only
  all_goals omega

theorem utf8DecodeReplace_valid : ∀ l : List Nat, ∀ c ∈ utf8DecodeReplace l, ValidScalar c
  | [] => by simp [utf8DecodeReplace_nil]
  | b :: rest => by
    rw [utf8DecodeReplace_cons]
    intro c hc
    rcases List.mem_cons.mp hc with h | h
    · rw [h]; exact decodeStep_fst_valid b rest
    · exact utf8DecodeReplace_valid (rest.drop (decodeStep b rest).2) c h
termination_by l => l.length
decreasing_by
  simp only [List.length_cons, List.length_drop]
  omega

/-- First-match association-list lookup, models Python dict lookup. -/
def alookup {α : Type} [DecidableEq α] {β : Type} : List (α × β) → α → Option β
  | [], _ => none
  | (k, v) :: rest, a => if k = a then some v else alookup rest a

/--
Insertion-ordered dict update, models Python dict assignment: an existing
key keeps its position and gets the new value, a new key is appended.
-/
def dinsert {α : Type} [DecidableEq α] {β : Type} : List (α × β) → α → β → List (α × β)
  | [], k, v => [(k, v)]
  | (k0, v0) :: rest, k, v =>
    if k0 = k then (k0, v) :: rest else (k0, v0) :: dinsert rest k v

/-- One update of the pair-count dict: pairs.get(pair, 0) + 1. -/
def bumpCount (stats : List ((Nat × Nat) × Nat)) (p : Nat × Nat) : List ((Nat × Nat) × Nat) :=
  match stats with
  | [] => [(p, 1)]
  | (q, c) :: rest => if q = p then (q, c + 1) :: rest else (q, c) :: bumpCount rest p

/--
MinimalBPETokenizer.get_stats: counts of adjacent token pairs, keys in
first-occurrence order as a Python dict built by repeated assignment.
-/
def get_stats (tokens : List Nat) : List ((Nat × Nat) × Nat) :=
  (tokens.zip tokens.tail).foldl bumpCount []

/-- Python max with key pairs.get: first key attaining the maximal count. -/
def pickMax (x : (Nat × Nat) × Nat) (l : List ((Nat × Nat) × Nat)) : (Nat × Nat) × Nat :=
  l.foldl (fun best y => if best.2 < y.2 then y else best) x

def maxByCount : List ((Nat × Nat) × Nat) → Option ((Nat × Nat) × Nat)
  | [] => none
  | x :: rest => some (pickMax x rest)

/-- Merge rank comparison: none stands for float inf in merges.get. -/
def rankLt : Option Nat → Option Nat → Bool
  | some x, some y => decide (x < y)
  | some _, none => true
  | none, _ => false

/-- Python min with key merges.get(p, inf): first pair of minimal rank. -/
def pickMinRank (merges : List ((Nat × Nat) × Nat)) (x : (Nat × Nat) × Nat)
    (l : List ((Nat × Nat) × Nat)) : (Nat × Nat) × Nat :=
  l.foldl (fun best y => if rankLt (alookup merges y.1) (alookup merges best.1) then y else best) x

def minByRank (merges : List ((Nat × Nat) × Nat)) :
    List ((Nat × Nat) × Nat) → Option (Nat × Nat)
  | [] => none
  | x :: rest => some ((pickMinRank merges x rest).1)

/--
MinimalBPETokenizer.merge_pair: replace every non-overlapping occurrence
of the pair, scanning left to right, by the new index.
-/
def merge_pair : List Nat → Nat × Nat → Nat → List Nat
  | a :: b :: rest, p, idx =>
    if a = p.1 ∧ b = p.2 then idx :: merge_pair rest p idx
    else a :: merge_pair (b :: rest) p idx
  | l, _, _ => l

/-- The frozen state built by training: vocab and merges dicts. -/
structure Tokenizer where
  vocab : List (Nat × List Nat)
  merges : List ((Nat × Nat) × Nat)

/-- The initial vocabulary: id i maps to the single byte i for i < 256. -/
def initVocab : List (Nat × List Nat) := (List.range 256).map (fun i => (i, [i]))

/--
The body of the training loop of MinimalBPETokenizer.train: at most fuel
iterations (fuel = vocab_size - 256); stops early when no adjacent pair
exists; otherwise merges the most frequent pair, records it in merges and
vocab, and rewrites the token sequence.
-/
def trainLoop : Nat → List (Nat × List Nat) → List ((Nat × Nat) × Nat) → List Nat → Nat → Tokenizer
  | 0, vocab, merges, _, _ => ⟨vocab, merges⟩
  | fuel + 1, vocab, merges, tokens, next_idx =>
    match maxByCount (get_stats tokens) with
    | none => ⟨vocab, merges⟩
    | some best =>
      trainLoop fuel
        (dinsert vocab next_idx
          ((alookup vocab best.1.1).getD [] ++ (alookup vocab best.1.2).getD []))
        (dinsert merges best.1 next_idx)
        (merge_pair tokens best.1 next_idx)
        (next_idx + 1)

/-- MinimalBPETokenizer.train on a text, with the given target vocab size. -/
def train (text : List Nat) (vocab_size : Nat) : Tokenizer :=
  trainLoop (vocab_size - 256) initVocab [] (utf8Encode text) 256

/--
The while loop of MinimalBPETokenizer.encode, with explicit fuel.  Each
productive iteration strictly shortens the token list, so any fuel of at
least the initial length gives the fixpoint of the Python while loop
(theorem encodeLoop_fuel_stable below).
-/
def encodeLoop : Nat → List ((Nat × Nat) × Nat) → List Nat → List Nat
  | 0, _, tokens => tokens
  | fuel + 1, merges, tokens =>
    match minByRank merges (get_stats tokens) with
    | none => tokens
    | some p =>
      match alookup merges p with
      | none => tokens
      | some idx => encodeLoop fuel merges (merge_pair tokens p idx)

/-- MinimalBPETokenizer.encode over a frozen merges table. -/
def encode (merges : List ((Nat × Nat) × Nat)) (text : List Nat) : List Nat :=
  encodeLoop (utf8Encode text).length merges (utf8Encode text)

/--
The byte concatenation inside MinimalBPETokenizer.decode; none models
the KeyError raised when a token id is absent from the vocabulary.
-/
def tokenBytes (vocab : List (Nat × List Nat)) : List Nat → Option (List Nat)
  | [] => some []
  | t :: rest =>
    match alookup vocab t, tokenBytes vocab rest with
    | some v, some bs => some (v ++ bs)
    | _, _ => none

/-- MinimalBPETokenizer.decode: concatenate vocab entries, decode UTF-8. -/
def decode (vocab : List (Nat × List Nat)) (tokens : List Nat) : Option (List Nat) :=
  (tokenBytes vocab tokens).map utf8DecodeReplace

theorem alookup_dinsert_self {α : Type} [DecidableEq α] {β : Type} :
    ∀ (d : List (α × β)) (k : α) (v : β), alookup (dinsert d k v) k = some v
  | [], k, v => by simp [dinsert, alookup]
  | (k0, v0) :: rest, k, v => by
    by_cases h : k0 = k
    · simp [dinsert, h, alookup]
    · simp only [dinsert, if_neg h, alookup]
      exact alookup_dinsert_self rest k v

theorem alookup_dinsert_ne {α : Type} [DecidableEq α] {β : Type} :
    ∀ (d : List (α × β)) (k a : α) (v : β), a ≠ k →
      alookup (dinsert d k v) a = alookup d a
  | [], k, a, v, h => by
    simp only [dinsert, alookup]
    rw [if_neg (fun hk => h hk.symm)]
  | (k0, v0) :: rest, k, a, v, h => by
    by_cases hk : k0 = k
    · simp only [dinsert, if_pos hk, alookup]
      rw [if_neg (fun hk0 : k0 = a => h (hk0.symm.trans hk)),
        if_neg (fun hk0 : k0 = a => h (hk0.symm.trans hk))]
    · simp only [dinsert, if_neg hk, alookup]
      by_cases hk0 : k0 = a
      · rw [if_pos hk0, if_pos hk0]
      · rw [if_neg hk0, if_neg hk0]
        exact alookup_dinsert_ne rest k a v h

theorem alookup_mem {α : Type} [DecidableEq α] {β : Type} :
    ∀ (d : List (α × β)) (k : α) (v : β), alookup d k = some v → (k, v) ∈ d
  | [], k, v, h => by simp [alookup] at h
  | (k0, v0) :: rest, k, v, h => by
    by_cases hk : k0 = k
    · rw [alookup, if_pos hk] at h
      subst hk
      rw [Option.some.injEq] at h
      subst h
      exact List.mem_cons_self _ _
    · rw [alookup, if_neg hk] at h
      exact List.mem_cons_of_mem _ (alookup_mem rest k v h)

theorem mem_dinsert {α : Type} [DecidableEq α] {β : Type} :
    ∀ (d : List (α × β)) (k : α) (v : β) (x : α × β),
      x ∈ dinsert d k v → x ∈ d ∨ x = (k, v)
  | [], k, v, x, h => by
    simp only [dinsert] at h
    right
    simpa using h
  | (k0, v0) :: rest, k, v, x, h => by
    by_cases hk : k0 = k
    · rw [dinsert, if_pos hk] at h
      rcases List.mem_cons.mp h with h | h
      · right; rw [h, hk]
      · left; exact List.mem_cons_of_mem _ h
    · rw [dinsert, if_neg hk] at h
      rcases List.mem_cons.mp h with h | h
      · left; rw [h]; exact List.mem_cons_self _ _
      · rcases mem_dinsert rest k v x h with h | h
        · left; exact List.mem_cons_of_mem _ h
        · right; exact h

theorem dinsert_length_le {α : Type} [DecidableEq α] {β : Type} :
    ∀ (d : List (α × β)) (k : α) (v : β), (dinsert d k v).length ≤ d.length + 1
  | [], _, _ => by simp [dinsert]
  | (k0, v0) :: rest, k, v => by
    by_cases hk : k0 = k
    · simp [dinsert, hk]
    · simp only [dinsert, if_neg hk, List.length_cons]
      have := dinsert_length_le rest k v
      omega

theorem dinsert_length_ge {α : Type} [DecidableEq α] {β : Type} :
    ∀ (d : List (α × β)) (k : α) (v : β), d.length ≤ (dinsert d k v).length
  | [], _, _ => by simp [dinsert]
  | (k0, v0) :: rest, k, v => by
    by_cases hk : k0 = k
    · simp [dinsert, hk]
    · simp only [dinsert, if_neg hk, List.length_cons]
      have := dinsert_length_ge rest k v
      omega

theorem merge_pair_length_le (p : Nat × Nat) (idx : Nat) :
    ∀ tokens : List Nat, (merge_pair tokens p idx).length ≤ tokens.length
  | [] => by simp [merge_pair]
  | [a] => by simp [merge_pair]
  | a :: b :: rest => by
    by_cases h : a = p.1 ∧ b = p.2
    · rw [merge_pair, if_pos h]
      have := merge_pair_length_le p idx rest
      simp only [List.length_cons]
      omega
    · rw [merge_pair, if_neg h]
      have := merge_pair_length_le p idx (b :: rest)
      simp only [List.length_cons] at *
      omega

theorem mem_merge_pair (p : Nat × Nat) (idx : Nat) :
    ∀ tokens t, t ∈ merge_pair tokens p idx → t = idx ∨ t ∈ tokens
  | [], t, h => by right; simpa [merge_pair] using h
  | [a], t, h => by right; simpa [merge_pair] using h
  | a :: b :: rest, t, h => by
    by_cases hc : a = p.1 ∧ b = p.2
    · rw [merge_pair, if_pos hc] at h
      rcases List.mem_cons.mp h with h | h
      · left; exact h
      · rcases mem_merge_pair p idx rest t h with h | h
        · left; exact h
        · right; exact List.mem_cons_of_mem _ (List.mem_cons_of_mem _ h)
    · rw [merge_pair, if_neg hc] at h
      rcases List.mem_cons.mp h with h | h
      · right; rw [h]; exact List.mem_cons_self _ _
      · rcases mem_merge_pair p idx (b :: rest) t h with h | h
        · left; exact h
        · right; exact List.mem_cons_of_mem _ h

theorem merge_pair_length_lt (idx : Nat) :
    ∀ (tokens : List Nat) (p : Nat × Nat), p ∈ tokens.zip tokens.tail →
      (merge_pair tokens p idx).length < tokens.length
  | [], p, h => by simp at h
  | [a], p, h => by simp at h
  | a :: b :: rest, p, h => by
    by_cases hc : a = p.1 ∧ b = p.2
    · rw [merge_pair, if_pos hc]
      have := merge_pair_length_le p idx rest
      simp only [List.length_cons]
      omega
    · rw [merge_pair, if_neg hc]
      simp only [List.tail_cons, List.zip_cons_cons, List.mem_cons] at h
      rcases h with h | h
      · exfalso
        apply hc
        rw [h]
        exact ⟨rfl, rfl⟩
      · have := merge_pair_length_lt idx (b :: rest) p (by exact h)
        simp only [List.length_cons] at *
        omega

theorem mem_bumpCount :
    ∀ (stats : List ((Nat × Nat) × Nat)) (p : Nat × Nat) (x : (Nat × Nat) × Nat),
      x ∈ bumpCount stats p → x.1 = p ∨ ∃ c, (x.1, c) ∈ stats
  | [], p, x, h => by
    left
    simp only [bumpCount, List.mem_singleton] at h
    rw [h]
  | (q, c) :: rest, p, x, h => by
    by_cases hq : q = p
    · rw [bumpCount, if_pos hq] at h
      rcases List.mem_cons.mp h with h | h
      · left; rw [h, hq]
      · right; exact ⟨x.2, List.mem_cons_of_mem _ (by simpa using h)⟩
    · rw [bumpCount, if_neg hq] at h
      rcases List.mem_cons.mp h with h | h
      · right; exact ⟨c, by rw [h]; exact List.mem_cons_self _ _⟩
      · rcases mem_bumpCount rest p x h with h | h
        · left; exact h
        · rcases h with ⟨c1, hc1⟩
          right; exact ⟨c1, List.mem_cons_of_mem _ hc1⟩

theorem foldl_bumpCount_keys :
    ∀ (l : List (Nat × Nat)) (acc : List ((Nat × Nat) × Nat)) (x : (Nat × Nat) × Nat),
      x ∈ l.foldl bumpCount acc → (∃ c, (x.1, c) ∈ acc) ∨ x.1 ∈ l := by
  intro l
  induction l with
  | nil => intro acc x h; left; exact ⟨x.2, by simpa using h⟩
  | cons q rest ih =>
    intro acc x h
    rw [List.foldl_cons] at h
    rcases ih (bumpCount acc q) x h with h | h
    · rcases h with ⟨c, hc⟩
      rcases mem_bumpCount acc q (x.1, c) hc with h | h
      · right; rw [h]; exact List.mem_cons_self _ _
      · left; exact h
    · right; exact List.mem_cons_of_mem _ h

theorem mem_get_stats {tokens : List Nat} {x : (Nat × Nat) × Nat}
    (h : x ∈ get_stats tokens) : x.1 ∈ tokens.zip tokens.tail := by
  rcases foldl_bumpCount_keys _ [] x h with h | h
  · rcases h with ⟨c, hc⟩
    simp at hc
  · exact h

theorem zip_tail_mem {tokens : List Nat} {p : Nat × Nat}
    (h : p ∈ tokens.zip tokens.tail) : p.1 ∈ tokens ∧ p.2 ∈ tokens := by
  obtain ⟨a, b⟩ := p
  have := List.of_mem_zip h
  exact ⟨this.1, List.mem_of_mem_tail this.2⟩

theorem bumpCount_ne_nil (stats : List ((Nat × Nat) × Nat)) (p : Nat × Nat) :
    bumpCount stats p ≠ [] := by
  match stats with
  | [] => simp [bumpCount]
  | (q, c) :: rest =>
    rw [bumpCount]
    split <;> simp

theorem foldl_bumpCount_ne_nil :
    ∀ (l : List (Nat × Nat)) (acc : List ((Nat × Nat) × Nat)),
      acc ≠ [] → l.foldl bumpCount acc ≠ [] := by
  intro l
  induction l with
  | nil => intro acc h; simpa using h
  | cons q rest ih =>
    intro acc _
    rw [List.foldl_cons]
    exact ih (bumpCount acc q) (bumpCount_ne_nil acc q)

theorem get_stats_ne_nil {tokens : List Nat} (h : 2 ≤ tokens.length) :
    get_stats tokens ≠ [] := by
  match tokens with
  | [] => simp at h
  | [a] => simp at h
  | a :: b :: rest =>
    rw [get_stats]
    simp only [List.tail_cons, List.zip_cons_cons, List.foldl_cons]
    exact foldl_bumpCount_ne_nil _ _ (bumpCount_ne_nil [] (a, b))

theorem foldl_pick {α : Type} (f : α → α → α) (hf : ∀ a b, f a b = a ∨ f a b = b) :
    ∀ (l : List α) (x : α), l.foldl f x = x ∨ l.foldl f x ∈ l := by
  intro l
  induction l with
  | nil => intro x; left; rfl
  | cons y rest ih =>
    intro x
    rw [List.foldl_cons]
    rcases ih (f x y) with h | h
    · rcases hf x y with hxy | hxy
      · left; rw [h, hxy]
      · right; rw [h, hxy]; exact List.mem_cons_self _ _
    · right; exact List.mem_cons_of_mem _ h

theorem maxByCount_mem {stats : List ((Nat × Nat) × Nat)} {m : (Nat × Nat) × Nat}
    (h : maxByCount stats = some m) : m ∈ stats := by
  match stats with
  | [] => simp [maxByCount] at h
  | x :: rest =>
    rw [maxByCount, Option.some.injEq] at h
    have hm : pickMax x rest = x ∨ pickMax x rest ∈ rest := by
      simp only [pickMax]
      exact foldl_pick (fun best y => if best.2 < y.2 then y else best)
        (fun a b => by dsimp only; split <;> simp) rest x
    rw [← h]
    rcases hm with h1 | h1
    · rw [h1]; exact List.mem_cons_self _ _
    · exact List.mem_cons_of_mem _ h1

theorem minByRank_mem {merges : List ((Nat × Nat) × Nat)} {stats : List ((Nat × Nat) × Nat)}
    {p : Nat × Nat} (h : minByRank merges stats = some p) : ∃ c, (p, c) ∈ stats := by
  match stats with
  | [] => simp [minByRank] at h
  | x :: rest =>
    rw [minByRank, Option.some.injEq] at h
    have hm : pickMinRank merges x rest = x ∨ pickMinRank merges x rest ∈ rest := by
      simp only [pickMinRank]
      exact foldl_pick
        (fun best y => if rankLt (alookup merges y.1) (alookup merges best.1) then y else best)
        (fun a b => by dsimp only; split <;> simp) rest x
    refine ⟨(pickMinRank merges x rest).2, ?_⟩
    rw [← h]
    show pickMinRank merges x rest ∈ x :: rest
    rcases hm with h1 | h1
    · rw [h1]; exact List.mem_cons_self _ _
    · exact List.mem_cons_of_mem _ h1

theorem minByRank_eq_none {merges stats : List ((Nat × Nat) × Nat)} :
    minByRank merges stats = none ↔ stats = [] := by
  match stats with
  | [] => simp [minByRank]
  | x :: rest => simp [minByRank]

theorem tokenBytes_cons_of {vocab : List (Nat × List Nat)} {t : Nat} {ts : List Nat}
    {v bs : List Nat} (h1 : alookup vocab t = some v) (h2 : tokenBytes vocab ts = some bs) :
    tokenBytes vocab (t :: ts) = some (v ++ bs) := by
  rw [tokenBytes, h1, h2]

theorem tokenBytes_cons_eq_some {vocab : List (Nat × List Nat)} {t : Nat} {ts : List Nat}
    {bs : List Nat} (h : tokenBytes vocab (t :: ts) = some bs) :
    ∃ v tb, alookup vocab t = some v ∧ tokenBytes vocab ts = some tb ∧ bs = v ++ tb := by
  rw [tokenBytes] at h
  cases halo : alookup vocab t with
  | none => rw [halo] at h; simp at h
  | some v =>
    cases htb : tokenBytes vocab ts with
    | none => rw [halo, htb] at h; simp at h
    | some tb =>
      rw [halo, htb, Option.some.injEq] at h
      exact ⟨v, tb, rfl, rfl, h.symm⟩

theorem tokenBytes_total (vocab : List (Nat × List Nat)) :
    ∀ tokens : List Nat, (∀ t ∈ tokens, (alookup vocab t).isSome) →
      ∃ bs, tokenBytes vocab tokens = some bs
  | [], _ => ⟨[], rfl⟩
  | t :: rest, h => by
    have ht := h t (List.mem_cons_self t rest)
    rcases Option.isSome_iff_exists.mp ht with ⟨v, hv⟩
    rcases tokenBytes_total vocab rest (fun x hx => h x (List.mem_cons_of_mem t hx)) with ⟨bs, hbs⟩
    exact ⟨v ++ bs, tokenBytes_cons_of hv hbs⟩

theorem tokenBytes_none (vocab : List (Nat × List Nat)) :
    ∀ (tokens : List Nat) (t : Nat), t ∈ tokens → alookup vocab t = none →
      tokenBytes vocab tokens = none
  | [], t, ht, _ => by simp at ht
  | a :: rest, t, ht, hnone => by
    rcases List.mem_cons.mp ht with h | h
    · rw [h] at hnone
      rw [tokenBytes, hnone]
    · rw [tokenBytes, tokenBytes_none vocab rest t h hnone]
      cases alookup vocab a <;> rfl

theorem tokenBytes_of_bytes (vocab : List (Nat × List Nat)) :
    ∀ bs : List Nat, (∀ b ∈ bs, alookup vocab b = some [b]) →
      tokenBytes vocab bs = some bs
  | [], _ => rfl
  | b :: rest, h => by
    have hb := h b (List.mem_cons_self b rest)
    have hrest := tokenBytes_of_bytes vocab rest (fun x hx => h x (List.mem_cons_of_mem b hx))
    rw [tokenBytes, hb, hrest]
    rfl

theorem merge_pair_tokenBytes {vocab : List (Nat × List Nat)} {p : Nat × Nat} {idx : Nat}
    {v1 v2 : List Nat} (h1 : alookup vocab p.1 = some v1) (h2 : alookup vocab p.2 = some v2)
    (hidx : alookup vocab idx = some (v1 ++ v2)) :
    ∀ (tokens bs : List Nat), tokenBytes vocab tokens = some bs →
      tokenBytes vocab (merge_pair tokens p idx) = some bs
  | [], bs, h => h
  | [a], bs, h => h
  | a :: b :: rest, bs, h => by
    rcases tokenBytes_cons_eq_some h with ⟨va, t1, hva, ht1, hbs⟩
    rcases tokenBytes_cons_eq_some ht1 with ⟨vb, t2, hvb, ht2, ht1eq⟩
    by_cases hc : a = p.1 ∧ b = p.2
    · rw [merge_pair, if_pos hc]
      have hmp := merge_pair_tokenBytes h1 h2 hidx rest t2 ht2
      have : tokenBytes vocab (idx :: merge_pair rest p idx) = some ((v1 ++ v2) ++ t2) :=
        tokenBytes_cons_of hidx hmp
      rw [this, hbs, ht1eq]
      have hva1 : va = v1 := by
        rw [hc.1] at hva
        exact Option.some.injEq _ _ ▸ (hva.symm.trans h1)
      have hvb2 : vb = v2 := by
        rw [hc.2] at hvb
        exact Option.some.injEq _ _ ▸ (hvb.symm.trans h2)
      rw [hva1, hvb2, List.append_assoc]
    · rw [merge_pair, if_neg hc]
      have hmp := merge_pair_tokenBytes h1 h2 hidx (b :: rest) t1 ht1
      rw [tokenBytes_cons_of hva hmp, hbs]

/-- Invariant: ids 0 to 255 map to their single byte in the vocabulary. -/
def ByteBase (vocab : List (Nat × List Nat)) : Prop :=
  ∀ b, b < 256 → alookup vocab b = some [b]

/--
Invariant: every merge table entry maps a pair to an id whose vocabulary
bytes are the concatenation of the bytes of the two constituent ids.
-/
def MergeOk (vocab : List (Nat × List Nat)) (merges : List ((Nat × Nat) × Nat)) : Prop :=
  ∀ p idx, alookup merges p = some idx →
    ∃ v1 v2, alookup vocab p.1 = some v1 ∧ alookup vocab p.2 = some v2 ∧
      alookup vocab idx = some (v1 ++ v2)

theorem encodeLoop_tokenBytes {vocab : List (Nat × List Nat)}
    {merges : List ((Nat × Nat) × Nat)} (hMO : MergeOk vocab merges) :
    ∀ (fuel : Nat) (tokens bs : List Nat), tokenBytes vocab tokens = some bs →
      tokenBytes vocab (encodeLoop fuel merges tokens) = some bs := by
  intro fuel
  induction fuel with
  | zero => intro tokens bs h; exact h
  | succ fuel ih =>
    intro tokens bs h
    rw [encodeLoop]
    cases hmin : minByRank merges (get_stats tokens) with
    | none => exact h
    | some p =>
      dsimp only
      cases hml : alookup merges p with
      | none => exact h
      | some idx =>
        rcases hMO p idx hml with ⟨v1, v2, h1, h2, hidx⟩
        exact ih _ _ (merge_pair_tokenBytes h1 h2 hidx tokens bs h)

theorem encodeLoop_length :
    ∀ (fuel : Nat) (merges : List ((Nat × Nat) × Nat)) (tokens : List Nat),
      (encodeLoop fuel merges tokens).length ≤ tokens.length := by
  intro fuel
  induction fuel with
  | zero => intro merges tokens; exact Nat.le_refl _
  | succ fuel ih =>
    intro merges tokens
    rw [encodeLoop]
    cases hmin : minByRank merges (get_stats tokens) with
    | none => exact Nat.le_refl _
    | some p =>
      dsimp only
      cases hml : alookup merges p with
      | none => exact Nat.le_refl _
      | some idx =>
        exact Nat.le_trans (ih merges (merge_pair tokens p idx))
          (merge_pair_length_le p idx tokens)

theorem encodeLoop_nil (fuel : Nat) (merges : List ((Nat × Nat) × Nat)) :
    encodeLoop fuel merges [] = [] := by
  cases fuel <;> rfl

theorem encodeLoop_fuel_stable (merges : List ((Nat × Nat) × Nat)) :
    ∀ (fuel1 fuel2 : Nat) (tokens : List Nat),
      tokens.length ≤ fuel1 → tokens.length ≤ fuel2 →
      encodeLoop fuel1 merges tokens = encodeLoop fuel2 merges tokens := by
  intro fuel1
  induction fuel1 with
  | zero =>
    intro fuel2 tokens h1 _
    have : tokens = [] := List.length_eq_zero.mp (Nat.le_zero.mp h1)
    rw [this, encodeLoop_nil, encodeLoop_nil]
  | succ fuel1 ih =>
    intro fuel2 tokens h1 h2
    cases fuel2 with
    | zero =>
      have : tokens = [] := List.length_eq_zero.mp (Nat.le_zero.mp h2)
      rw [this, encodeLoop_nil, encodeLoop_nil]
    | succ fuel2 =>
      rw [encodeLoop, encodeLoop]
      cases hmin : minByRank merges (get_stats tokens) with
      | none => rfl
      | some p =>
        dsimp only
        cases hml : alookup merges p with
        | none => rfl
        | some idx =>
          rcases minByRank_mem hmin with ⟨c, hc⟩
          have hlt : (merge_pair tokens p idx).length < tokens.length :=
            merge_pair_length_lt idx tokens p (mem_get_stats hc)
          exact ih fuel2 (merge_pair tokens p idx) (by omega) (by omega)

/--
The training loop preserves the vocabulary and merge-table invariants:
the byte base, the concatenation property of every merge entry, the
closure of the token sequence under the vocabulary, and freshness of
next_idx over everything already allocated.
-/
theorem trainLoop_inv :
    ∀ (fuel : Nat) (vocab : List (Nat × List Nat)) (merges : List ((Nat × Nat) × Nat))
      (tokens : List Nat) (next : Nat),
      ByteBase vocab → MergeOk vocab merges →
      (∀ t ∈ tokens, (alookup vocab t).isSome) →
      (∀ t ∈ tokens, t < next) →
      (∀ e ∈ merges, e.1.1 < next ∧ e.1.2 < next ∧ e.2 < next) →
      256 ≤ next →
      ByteBase (trainLoop fuel vocab merges tokens next).vocab ∧
        MergeOk (trainLoop fuel vocab merges tokens next).vocab
          (trainLoop fuel vocab merges tokens next).merges := by
  intro fuel
  induction fuel with
  | zero => intro vocab merges tokens next hBB hMO _ _ _ _; exact ⟨hBB, hMO⟩
  | succ fuel ih =>
    intro vocab merges tokens next hBB hMO hAll hTok hMer hN
    rw [trainLoop]
    cases hmax : maxByCount (get_stats tokens) with
    | none => exact ⟨hBB, hMO⟩
    | some best =>
      dsimp only
      have hmem := maxByCount_mem hmax
      have hzip := mem_get_stats hmem
      have hb1 : best.1.1 ∈ tokens := (zip_tail_mem hzip).1
      have hb2 : best.1.2 ∈ tokens := (zip_tail_mem hzip).2
      rcases Option.isSome_iff_exists.mp (hAll _ hb1) with ⟨v1, hv1⟩
      rcases Option.isSome_iff_exists.mp (hAll _ hb2) with ⟨v2, hv2⟩
      have hnextNe1 : best.1.1 ≠ next := fun he => by
        have := hTok _ hb1; omega
      have hnextNe2 : best.1.2 ≠ next := fun he => by
        have := hTok _ hb2; omega
      have hval :
          (alookup vocab best.1.1).getD [] ++ (alookup vocab best.1.2).getD [] = v1 ++ v2 := by
        rw [hv1, hv2]; rfl
      apply ih
      · intro b hb
        rw [alookup_dinsert_ne vocab next b _ (by omega)]
        exact hBB b hb
      · intro p idx hpl
        by_cases hp : p = best.1
        · rw [hp, alookup_dinsert_self, Option.some.injEq] at hpl
          refine ⟨v1, v2, ?_, ?_, ?_⟩
          · rw [hp, alookup_dinsert_ne vocab next _ _ hnextNe1]; exact hv1
          · rw [hp, alookup_dinsert_ne vocab next _ _ hnextNe2]; exact hv2
          · rw [← hpl, hval]
            exact alookup_dinsert_self vocab next _
        · rw [alookup_dinsert_ne merges best.1 p next hp] at hpl
          rcases hMO p idx hpl with ⟨w1, w2, hw1, hw2, hwc⟩
          have hem : p.1 < next ∧ p.2 < next ∧ idx < next :=
            hMer _ (alookup_mem merges p idx hpl)
          refine ⟨w1, w2, ?_, ?_, ?_⟩
          · rw [alookup_dinsert_ne vocab next _ _ (by omega)]; exact hw1
          · rw [alookup_dinsert_ne vocab next _ _ (by omega)]; exact hw2
          · rw [alookup_dinsert_ne vocab next _ _ (by omega)]; exact hwc
      · intro t ht
        rcases mem_merge_pair best.1 next tokens t ht with h | h
        · rw [h, alookup_dinsert_self]; rfl
        · by_cases htn : t = next
          · rw [htn, alookup_dinsert_self]; rfl
          · rw [alookup_dinsert_ne vocab next t _ htn]
            exact hAll t h
      · intro t ht
        rcases mem_merge_pair best.1 next tokens t ht with h | h
        · omega
        · have := hTok t h; omega
      · intro e he
        rcases mem_dinsert merges best.1 next e he with h | h
        · have := hMer e h; omega
        · rw [h]
          have h1 := hTok _ hb1
          have h2 := hTok _ hb2
          exact ⟨Nat.lt_succ_of_lt h1, Nat.lt_succ_of_lt h2, Nat.lt_succ_self next⟩
      · omega

theorem trainLoop_merges_le :
    ∀ (fuel : Nat) (vocab : List (Nat × List Nat)) (merges : List ((Nat × Nat) × Nat))
      (tokens : List Nat) (next : Nat),
      (trainLoop fuel vocab merges tokens next).merges.length ≤ merges.length + fuel := by
  intro fuel
  induction fuel with
  | zero => intro vocab merges tokens next; exact Nat.le_refl _
  | succ fuel ih =>
    intro vocab merges tokens next
    rw [trainLoop]
    cases hmax : maxByCount (get_stats tokens) with
    | none => dsimp only; omega
    | some best =>
      dsimp only
      have h1 := ih (dinsert vocab next
        ((alookup vocab best.1.1).getD [] ++ (alookup vocab best.1.2).getD []))
        (dinsert merges best.1 next) (merge_pair tokens best.1 next) (next + 1)
      have h2 := dinsert_length_le merges best.1 next
      omega

theorem trainLoop_merges_mono :
    ∀ (fuel : Nat) (vocab : List (Nat × List Nat)) (merges : List ((Nat × Nat) × Nat))
      (tokens : List Nat) (next : Nat),
      merges.length ≤ (trainLoop fuel vocab merges tokens next).merges.length := by
  intro fuel
  induction fuel with
  | zero => intro vocab merges tokens next; exact Nat.le_refl _
  | succ fuel ih =>
    intro vocab merges tokens next
    rw [trainLoop]
    cases hmax : maxByCount (get_stats tokens) with
    | none => exact Nat.le_refl _
    | some best =>
      dsimp only
      have h1 := ih (dinsert vocab next
        ((alookup vocab best.1.1).getD [] ++ (alookup vocab best.1.2).getD []))
        (dinsert merges best.1 next) (merge_pair tokens best.1 next) (next + 1)
      have h2 := dinsert_length_ge merges best.1 next
      omega

theorem trainLoop_short (fuel : Nat) (vocab : List (Nat × List Nat))
    (merges : List ((Nat × Nat) × Nat)) (tokens : List Nat) (next : Nat)
    (h : tokens.length < 2) : trainLoop fuel vocab merges tokens next = ⟨vocab, merges⟩ := by
  match tokens with
  | [] => cases fuel <;> rfl
  | [a] => cases fuel <;> rfl
  | a :: b :: rest =>
    simp only [List.length_cons] at h
    exact ((by omega : False)).elim

set_option maxRecDepth 4000 in
/-- The two invariants hold of the tables produced by training. -/
theorem train_inv {text : List Nat} (vocab_size : Nat) (h : ∀ c ∈ text, ValidScalar c) :
    ByteBase (train text vocab_size).vocab ∧
      MergeOk (train text vocab_size).vocab (train text vocab_size).merges := by
  apply trainLoop_inv
  · intro b hb
    have : alookup initVocab b = some [b] := by
      have hball : ∀ b0, b0 < 256 → alookup initVocab b0 = some [b0] := by decide
      exact hball b hb
    exact this
  · intro p idx hpl
    simp [alookup] at hpl
  · intro t ht
    have hlt := utf8Encode_lt h t ht
    have hball : ∀ b0, b0 < 256 → alookup initVocab b0 = some [b0] := by decide
    rw [hball t hlt]
    rfl
  · intro t ht
    exact utf8Encode_lt h t ht
  · intro e he
    simp at he
  · exact Nat.le_refl _

set_option maxRecDepth 8000

theorem maxByCount_eq_none {stats : List ((Nat × Nat) × Nat)} :
    maxByCount stats = none ↔ stats = [] := by
  match stats with
  | [] => simp [maxByCount]
  | x :: rest => simp [maxByCount]

theorem initVocab_lookup (i : Nat) (hi : i < 256) : alookup initVocab i = some [i] := by
  have hball : ∀ b0, b0 < 256 → alookup initVocab b0 = some [b0] := by decide
  exact hball i hi

/--
Round trip through a trained tokenizer: encoding preserves the underlying
byte sequence because every merge id concatenates its parts, and decoding
those bytes restores the text.
-/
theorem bpe_roundtrip (corpus : List Nat) (vocab_size : Nat) (s : List Nat)
    (hcorpus : ∀ c ∈ corpus, ValidScalar c) (hs : ∀ c ∈ s, ValidScalar c) :
    decode (train corpus vocab_size).vocab
      (encode (train corpus vocab_size).merges s) = some s := by
  obtain ⟨hBB, hMO⟩ := train_inv vocab_size hcorpus
  have hbytes : ∀ b ∈ utf8Encode s, alookup (train corpus vocab_size).vocab b = some [b] :=
    fun b hb => hBB b (utf8Encode_lt hs b hb)
  have h0 : tokenBytes (train corpus vocab_size).vocab (utf8Encode s) =
      some (utf8Encode s) := tokenBytes_of_bytes _ _ hbytes
  have h1 := encodeLoop_tokenBytes hMO (utf8Encode s).length (utf8Encode s) (utf8Encode s) h0
  rw [decode, encode, h1]
  show some (utf8DecodeReplace (utf8Encode s)) = some s
  rw [utf8_roundtrip s hs]

/--
C1: for every text s whose characters are drawn from the training corpus
byte alphabet, after training on that corpus, decode (encode s) = some s.
-/
theorem bpe_roundtrip_corpus_alphabet (corpus : List Nat) (vocab_size : Nat) (s : List Nat)
    (hcorpus : ∀ c ∈ corpus, ValidScalar c) (hs : ∀ c ∈ s, ValidScalar c)
    (halpha : ∀ b ∈ utf8Encode s, b ∈ utf8Encode corpus) :
    decode (train corpus vocab_size).vocab
      (encode (train corpus vocab_size).merges s) = some s :=
  bpe_roundtrip corpus vocab_size s hcorpus hs

theorem bpe_roundtrip_corpus_alphabet_witness :
    decode (train [97, 98] 300).vocab (encode (train [97, 98] 300).merges [97]) = some [97] :=
  bpe_roundtrip_corpus_alphabet [97, 98] 300 [97] (by decide) (by decide) (by decide)

/--
C2: the encoding of any string is at most as long as its UTF-8 byte
encoding, and encoding the empty string gives the empty token sequence.
-/
theorem encode_length_le (corpus : List Nat) (vocab_size : Nat) (s : List Nat) :
    (encode (train corpus vocab_size).merges s).length ≤ (utf8Encode s).length ∧
      encode (train corpus vocab_size).merges [] = [] := by
  constructor
  · rw [encode]
    exact encodeLoop_length _ _ _
  · rfl

/--
C3 as stated is false: training on the two-byte corpus ab, in which every
adjacent pair occurs exactly once, still performs a merge.
-/
theorem train_single_occurrence_merges :
    (∀ pc ∈ get_stats (utf8Encode [97, 98]), pc.2 ≤ 1) ∧
      (train [97, 98] 257).merges = [((97, 98), 256)] := by
  constructor
  · decide
  · decide

/--
C3 amended: the training loop merges while the vocabulary is below the
target and at least one adjacent pair exists; it stops, performing no
merge, exactly when fewer than two tokens remain, regardless of whether
any pair occurs more than once.
-/
theorem train_stops_without_pairs :
    (∀ (fuel : Nat) (vocab : List (Nat × List Nat)) (merges : List ((Nat × Nat) × Nat))
        (tokens : List Nat) (next : Nat),
      tokens.length < 2 → trainLoop fuel vocab merges tokens next = ⟨vocab, merges⟩) ∧
    (∀ (text : List Nat) (vocab_size : Nat), 256 < vocab_size →
      2 ≤ (utf8Encode text).length → (train text vocab_size).merges ≠ []) ∧
    (∀ (text : List Nat) (vocab_size : Nat),
      (train text vocab_size).merges.length ≤ vocab_size - 256) := by
  refine ⟨fun fuel vocab merges tokens next h => trainLoop_short fuel vocab merges tokens next h,
    ?_, ?_⟩
  · intro text vocab_size hvs hlen
    obtain ⟨f, hf⟩ : ∃ f, vocab_size - 256 = f + 1 := ⟨vocab_size - 257, by omega⟩
    rw [train, hf, trainLoop]
    cases hmax : maxByCount (get_stats (utf8Encode text)) with
    | none =>
      exact absurd (maxByCount_eq_none.mp hmax) (get_stats_ne_nil hlen)
    | some best =>
      dsimp only
      have hmono := trainLoop_merges_mono f
        (dinsert initVocab 256
          ((alookup initVocab best.1.1).getD [] ++ (alookup initVocab best.1.2).getD []))
        (dinsert [] best.1 256) (merge_pair (utf8Encode text) best.1 256) 257
      intro heq
      rw [heq] at hmono
      simp [dinsert] at hmono
  · intro text vocab_size
    have h := trainLoop_merges_le (vocab_size - 256) initVocab [] (utf8Encode text) 256
    rw [train]
    simpa using h

theorem train_stops_without_pairs_witness :
    trainLoop 44 initVocab [] [97] 256 = ⟨initVocab, []⟩ ∧ (train [97, 98] 300).merges ≠ [] :=
  ⟨train_stops_without_pairs.1 44 initVocab [] [97] 256 (by decide),
    train_stops_without_pairs.2.1 [97, 98] 300 (by decide) (by decide)⟩

/--
C4: after training on any corpus, every merge entry (a, b) mapping to n
has vocabulary entries with bytes of n equal to bytes of a ++ bytes of b.
-/
theorem train_merge_vocab_concat (text : List Nat) (vocab_size : Nat)
    (htext : ∀ c ∈ text, ValidScalar c) (p : Nat × Nat) (idx : Nat)
    (h : alookup (train text vocab_size).merges p = some idx) :
    ∃ v1 v2, alookup (train text vocab_size).vocab p.1 = some v1 ∧
      alookup (train text vocab_size).vocab p.2 = some v2 ∧
      alookup (train text vocab_size).vocab idx = some (v1 ++ v2) :=
  (train_inv vocab_size htext).2 p idx h

theorem train_merge_vocab_concat_witness :
    ∃ v1 v2, alookup (train [97, 97] 257).vocab 97 = some v1 ∧
      alookup (train [97, 97] 257).vocab 97 = some v2 ∧
      alookup (train [97, 97] 257).vocab 256 = some (v1 ++ v2) :=
  train_merge_vocab_concat [97, 97] 257 (by decide) (97, 97) 256 (by decide)

/--
C5: decode of a token sequence containing an id absent from the
vocabulary fails for that call (Python raises KeyError, modelled none).
-/
theorem decode_unknown_token (vocab : List (Nat × List Nat)) (tokens : List Nat)
    (h : ∃ t ∈ tokens, alookup vocab t = none) : decode vocab tokens = none := by
  rcases h with ⟨t, ht, hnone⟩
  rw [decode, tokenBytes_none vocab tokens t ht hnone]
  rfl

theorem decode_unknown_token_witness : decode (train [] 300).vocab [300] = none :=
  decode_unknown_token _ _ ⟨300, by decide, by decide⟩

/--
C6: decode of a token sequence whose ids are all in the vocabulary never
fails: it returns a text in which every element is a Unicode scalar, with
invalid byte runs replaced by U+FFFD by the replacing decoder.
-/
theorem decode_known_tokens_total (vocab : List (Nat × List Nat)) (tokens : List Nat)
    (h : ∀ t ∈ tokens, (alookup vocab t).isSome) :
    ∃ out, decode vocab tokens = some out ∧ ∀ c ∈ out, ValidScalar c := by
  rcases tokenBytes_total vocab tokens h with ⟨bs, hbs⟩
  refine ⟨utf8DecodeReplace bs, ?_, utf8DecodeReplace_valid bs⟩
  rw [decode, hbs]
  rfl

theorem decode_known_tokens_total_witness :
    (∃ out, decode (train [] 300).vocab [255] = some out ∧ ∀ c ∈ out, ValidScalar c) ∧
      decode (train [] 300).vocab [255] = some [0xFFFD] := by
  refine ⟨decode_known_tokens_total _ _ (by decide), ?_⟩
  have h1 : tokenBytes (train [] 300).vocab [255] = some [255] := by decide
  have h2 : utf8DecodeReplace [255] = [0xFFFD] := by
    rw [utf8DecodeReplace_cons]
    simp [decodeStep, utf8DecodeReplace_nil]
  rw [decode, h1]
  show some (utf8DecodeReplace [255]) = some [0xFFFD]
  rw [h2]

/--
C7: training on the empty corpus succeeds for any target size and leaves
exactly the 256 single-byte vocabulary entries and an empty merge table.
-/
theorem train_empty_corpus (vocab_size : Nat) :
    (train [] vocab_size).vocab = initVocab ∧ (train [] vocab_size).merges = [] ∧
      ∀ i, i < 256 → alookup (train [] vocab_size).vocab i = some [i] := by
  have h : train [] vocab_size = ⟨initVocab, []⟩ := by
    rw [train]
    exact trainLoop_short _ _ _ _ _ (by decide)
  refine ⟨by rw [h], by rw [h], ?_⟩
  intro i hi
  rw [h]
  exact initVocab_lookup i hi

theorem train_empty_corpus_witness : alookup (train [] 300).vocab 97 = some [97] :=
  (train_empty_corpus 300).2.2 97 (by decide)

/-- C8: training with a target vocab size of at most 256 records no merge. -/
theorem train_small_target_no_merges (text : List Nat) (vocab_size : Nat)
    (h : vocab_size ≤ 256) : (train text vocab_size).merges = [] := by
  have hf : vocab_size - 256 = 0 := by omega
  rw [train, hf]
  rfl

theorem train_small_target_no_merges_witness : (train [97, 98, 97] 256).merges = [] :=
  train_small_target_no_merges [97, 98, 97] 256 (by decide)

/--
C9: the round trip holds for arbitrary valid text and a tokenizer trained
on any corpus whatsoever, disjoint from the text or not.
-/
theorem bpe_roundtrip_any_text (corpus : List Nat) (vocab_size : Nat) (s : List Nat)
    (hcorpus : ∀ c ∈ corpus, ValidScalar c) (hs : ∀ c ∈ s, ValidScalar c) :
    decode (train corpus vocab_size).vocab
      (encode (train corpus vocab_size).merges s) = some s :=
  bpe_roundtrip corpus vocab_size s hcorpus hs

theorem bpe_roundtrip_any_text_witness :
    decode (train [104, 105] 260).vocab
      (encode (train [104, 105] 260).merges [128512]) = some [128512] :=
  bpe_roundtrip_any_text [104, 105] 260 [128512] (by decide) (by decide)

/--
C10: training performs at most vocab_size - 256 merge iterations, and the
encode loop reaches its fixpoint within the byte length of the input:
any fuel beyond that length leaves the result unchanged.
-/
theorem train_encode_bounded :
    (∀ (text : List Nat) (vocab_size : Nat),
      (train text vocab_size).merges.length ≤ vocab_size - 256) ∧
    (∀ (merges : List ((Nat × Nat) × Nat)) (s : List Nat) (extra : Nat),
      encodeLoop ((utf8Encode s).length + extra) merges (utf8Encode s) = encode merges s) := by
  constructor
  · intro text vocab_size
    have h := trainLoop_merges_le (vocab_size - 256) initVocab [] (utf8Encode text) 256
    rw [train]
    simpa using h
  · intro merges s extra
    rw [encode]
    exact encodeLoop_fuel_stable merges _ _ _ (by omega) (by omega)
